import Mathlib

set_option maxRecDepth 4000

/- Verification of the gitcloner repository-synchronization service.
   Rust strings are modelled as `List Char`; the helpers below reproduce the
   semantics of the Rust standard-library string operations used by the code. -/

instance exceptDecEq {ε α : Type} [DecidableEq ε] [DecidableEq α] : DecidableEq (Except ε α)
  | .ok a, .ok b =>
    if h : a = b then .isTrue (by rw [h]) else .isFalse fun hc => h (Except.ok.inj hc)
  | .error a, .error b =>
    if h : a = b then .isTrue (by rw [h]) else .isFalse fun hc => h (Except.error.inj hc)
  | .ok _, .error _ => .isFalse fun hc => Except.noConfusion hc
  | .error _, .ok _ => .isFalse fun hc => Except.noConfusion hc

/-- The path separator character used to compose canonical identifiers. -/
def sl : Char := '/'

/-- The `"http://"` scheme marker tested by `extract_repo_name`. -/
def httpPre : List Char := "http://".data

/-- The `"https://"` scheme marker tested by `extract_repo_name`. -/
def httpsPre : List Char := "https://".data

/-- The `"://"` separator that `extract_repo_name` splits HTTP(S) URLs on. -/
def schemeSep : List Char := "://".data

/-- The `".git"` ending stripped from repository segments. -/
def gitEnding : List Char := ".git".data

def errInvalidUrl : List Char := "Invalid URL format".data

def errInvalidRepoUrl : List Char := "Invalid repository URL format".data

def errInvalidSsh : List Char := "Invalid SSH URL format".data

def errInvalidRepoPath : List Char := "Invalid repository path format".data

def errUnsupported : List Char := "Unsupported URL format".data

def errEmptyName : List Char := "Could not extract repository name from URL".data

/-- Rust `str::ends_with`: `pat` is a suffix of `l`. -/
def endsWithSeq (l pat : List Char) : Bool := pat.reverse.isPrefixOf l.reverse

/-- Rust `str::trim_end_matches`: repeatedly remove the suffix `pat`.
    The `Nat` argument is structural fuel; `l.length` steps always suffice. -/
def trimEndFuel (pat : List Char) : Nat → List Char → List Char
  | 0, l => l
  | f + 1, l =>
    if !pat.isEmpty && endsWithSeq l pat then
      trimEndFuel pat f (l.take (l.length - pat.length))
    else l

/-- Rust `str::trim_end_matches` on a whole string. -/
def trimEndMatches (pat l : List Char) : List Char := trimEndFuel pat l.length l

/-- Rust `str::split` with a single-character pattern (keeps empty pieces). -/
def splitOnChar (c : Char) : List Char → List (List Char)
  | [] => [[]]
  | x :: xs =>
    if x = c then [] :: splitOnChar c xs
    else
      match splitOnChar c xs with
      | [] => [[x]]
      | s :: ss => (x :: s) :: ss

/-- Rust `str::split` with a string pattern (non-overlapping, left to right).
    The `Nat` argument is structural fuel; `l.length + 1` steps always suffice
    for a non-empty pattern. -/
def splitSeqFuel (pat : List Char) : Nat → List Char → List Char → List (List Char)
  | 0, l, acc => [acc.reverse ++ l]
  | f + 1, l, acc =>
    match l with
    | [] => [acc.reverse]
    | c :: cs =>
      if pat.isPrefixOf (c :: cs) then
        acc.reverse :: splitSeqFuel pat f ((c :: cs).drop pat.length) []
      else
        splitSeqFuel pat f cs (c :: acc)

/-- Rust `str::split` with a string pattern, on a whole string. -/
def splitSeq (pat l : List Char) : List (List Char) := splitSeqFuel pat (l.length + 1) l []

/-- Rust `str::replace` with a single-character pattern. -/
def replaceChar (a b : Char) (l : List Char) : List Char := l.map fun c => if c = a then b else c

/-- Embedding of `extract_repo_name` from `src/git_manager.rs` (lines 134-195). -/
def extractRepoNameGit (url0 : List Char) : Except (List Char) (List Char) :=
  let url := trimEndMatches [sl] url0
  let parsed : Except (List Char) (List Char) :=
    if httpPre.isPrefixOf url || httpsPre.isPrefixOf url then
      match (splitSeq schemeSep url).get? 1 with
      | none => .error errInvalidUrl
      | some withoutProtocol =>
        match splitOnChar sl withoutProtocol with
        | host :: org :: repoSeg :: _ =>
          .ok (host ++ [sl] ++ org ++ [sl] ++ trimEndMatches gitEnding repoSeg)
        | _ => .error errInvalidRepoUrl
    else if '@' ∈ url then
      match splitOnChar '@' url with
      | [_user, hostAndPath] =>
        match splitOnChar ':' hostAndPath with
        | [host, path] =>
          match splitOnChar sl path with
          | [org, repoSeg] => .ok (host ++ [sl] ++ org ++ [sl] ++ trimEndMatches gitEnding repoSeg)
          | [repoSeg] => .ok (host ++ [sl] ++ trimEndMatches gitEnding repoSeg)
          | _ => .error errInvalidRepoPath
        | _ => .error errInvalidSsh
      | _ => .error errInvalidSsh
    else .error errUnsupported
  match parsed with
  | .error e => .error e
  | .ok p =>
    if p.isEmpty then .error errEmptyName
    else .ok (replaceChar '@' '_' (replaceChar ':' '_' p))

/-- Embedding of `extract_repo_name` from `src/handlers.rs` (lines 356-417); the
    source there is textually identical to the copy in `src/git_manager.rs`. -/
def extractRepoNameHandlers (url0 : List Char) : Except (List Char) (List Char) :=
  let url := trimEndMatches [sl] url0
  let parsed : Except (List Char) (List Char) :=
    if httpPre.isPrefixOf url || httpsPre.isPrefixOf url then
      match (splitSeq schemeSep url).get? 1 with
      | none => .error errInvalidUrl
      | some withoutProtocol =>
        match splitOnChar sl withoutProtocol with
        | host :: org :: repoSeg :: _ =>
          .ok (host ++ [sl] ++ org ++ [sl] ++ trimEndMatches gitEnding repoSeg)
        | _ => .error errInvalidRepoUrl
    else if '@' ∈ url then
      match splitOnChar '@' url with
      | [_user, hostAndPath] =>
        match splitOnChar ':' hostAndPath with
        | [host, path] =>
          match splitOnChar sl path with
          | [org, repoSeg] => .ok (host ++ [sl] ++ org ++ [sl] ++ trimEndMatches gitEnding repoSeg)
          | [repoSeg] => .ok (host ++ [sl] ++ trimEndMatches gitEnding repoSeg)
          | _ => .error errInvalidRepoPath
        | _ => .error errInvalidSsh
      | _ => .error errInvalidSsh
    else .error errUnsupported
  match parsed with
  | .error e => .error e
  | .ok p =>
    if p.isEmpty then .error errEmptyName
    else .ok (replaceChar '@' '_' (replaceChar ':' '_' p))

/-- The `host` variable `extract_repo_name` binds while parsing: `parts[0]`
    in the HTTP(S) branch and `colon_split[0]` in the SSH branch (the same
    splits, in the same order, as `extractRepoNameGit`); `none` when the
    function fails before binding it. -/
def urlHost (url0 : List Char) : Option (List Char) :=
  let url := trimEndMatches [sl] url0
  if httpPre.isPrefixOf url || httpsPre.isPrefixOf url then
    match (splitSeq schemeSep url).get? 1 with
    | none => none
    | some withoutProtocol =>
      match splitOnChar sl withoutProtocol with
      | host :: _ :: _ :: _ => some host
      | _ => none
  else if '@' ∈ url then
    match splitOnChar '@' url with
    | [_user, hostAndPath] =>
      match splitOnChar ':' hostAndPath with
      | [host, _path] => some host
      | _ => none
    | _ => none
  else none

/-- The `org` variable `extract_repo_name` binds while parsing: `parts[1]`
    in the HTTP(S) branch and `path_parts[0]` in the two-segment SSH case;
    `none` when the URL has no organization segment or parsing fails. -/
def urlOrg (url0 : List Char) : Option (List Char) :=
  let url := trimEndMatches [sl] url0
  if httpPre.isPrefixOf url || httpsPre.isPrefixOf url then
    match (splitSeq schemeSep url).get? 1 with
    | none => none
    | some withoutProtocol =>
      match splitOnChar sl withoutProtocol with
      | _ :: org :: _ :: _ => some org
      | _ => none
  else if '@' ∈ url then
    match splitOnChar '@' url with
    | [_user, hostAndPath] =>
      match splitOnChar ':' hostAndPath with
      | [_host, path] =>
        match splitOnChar sl path with
        | [org, _repoSeg] => some org
        | _ => none
      | _ => none
    | _ => none
  else none

/-- The five terminal outcomes of the per-repository sync state machine
    (spec section 4.2); in the code each corresponds to one control-flow
    branch of `sync_repository` in `src/git_manager.rs` (lines 63-131). -/
inductive SyncOutcome where
  | fastForwarded (n : Nat)
  | upToDate
  | divergedSkipped
  | localChangesSkipped
  | error (reason : List Char)
  deriving DecidableEq

/-- State of one local clone together with the outcome of each fallible
    provider call performed by `sync_repository`.  Each `Ok`-flag models the
    success of the correspondingly named `git2` call (every `?` in the source);
    `ahead`/`behind` model the value returned by `graph_ahead_behind` between
    the local branch tip and the fetched remote-tracking tip. -/
structure RepoModel where
  /-- `local_path.exists()` -/
  pathExists : Bool
  /-- `Repository::open` succeeds -/
  openOk : Bool
  /-- `find_remote("origin")` succeeds -/
  originOk : Bool
  /-- `remote.fetch(...)` succeeds -/
  fetchOk : Bool
  /-- the remote's tip for the current branch, written into
      `refs/remotes/origin/<branch>` by the fetch (`none` = branch absent) -/
  remoteBranchTip : Option Nat
  /-- `repo.statuses(None)` succeeds -/
  statusesOk : Bool
  /-- `!statuses.is_empty()`: uncommitted local modifications present -/
  dirty : Bool
  /-- `repo.head()` succeeds -/
  headOk : Bool
  /-- `head.shorthand()`: current branch name, `none` when detached -/
  headShorthand : Option (List Char)
  /-- `remote_ref.peel_to_commit()` succeeds -/
  peelRemoteOk : Bool
  /-- `head.peel_to_commit()` succeeds -/
  peelLocalOk : Bool
  /-- `graph_ahead_behind` succeeds -/
  graphOk : Bool
  /-- commits on the local branch not on the remote-tracking branch -/
  ahead : Nat
  /-- commits on the remote-tracking branch not on the local branch -/
  behind : Nat
  /-- `find_reference("refs/heads/<branch>")` succeeds -/
  findLocalRefOk : Bool
  /-- `reference.set_target(...)` succeeds -/
  setTargetOk : Bool
  /-- `checkout_head(force)` succeeds -/
  checkoutOk : Bool
  /-- commit id at the tip of the current local branch (`refs/heads/<branch>`) -/
  branchTip : Nat
  /-- abstraction of the working-directory content (the commit it reflects) -/
  workdir : Nat
  /-- `refs/remotes/origin/<branch>` as stored before this sync -/
  tracking : Option Nat
  deriving DecidableEq

def errPathMissing : List Char := "Repository path does not exist".data

def errOpenFailed : List Char := "failed to open repository".data

def errNoOrigin : List Char := "remote origin not found".data

def errFetchFailed : List Char := "fetch failed".data

def errStatusesFailed : List Char := "failed to read repository statuses".data

def errHeadFailed : List Char := "failed to read HEAD".data

def errPeelRemote : List Char := "failed to peel remote reference".data

def errPeelLocal : List Char := "failed to peel local reference".data

def errGraphFailed : List Char := "failed to compute ahead-behind counts".data

def errFindLocalRef : List Char := "failed to find local branch reference".data

def errSetTarget : List Char := "failed to set branch target".data

def errCheckout : List Char := "checkout failed".data

/-- Embedding of `sync_repository` from `src/git_manager.rs` (lines 63-131):
    returns the terminal state-machine outcome of the attempt together with the
    repository state after it.  The fetch updates the remote-tracking
    reference before local changes are inspected; a fast-forward first moves
    the branch reference and then force-checkouts the working directory. -/
def syncRepository (r : RepoModel) : SyncOutcome × RepoModel :=
  if !r.pathExists then (.error errPathMissing, r)
  else if !r.openOk then (.error errOpenFailed, r)
  else if !r.originOk then (.error errNoOrigin, r)
  else if !r.fetchOk then (.error errFetchFailed, r)
  else
    let r1 := { r with tracking := r.remoteBranchTip }
    if !r1.statusesOk then (.error errStatusesFailed, r1)
    else if r1.dirty then (.localChangesSkipped, r1)
    else if !r1.headOk then (.error errHeadFailed, r1)
    else
      match r1.headShorthand with
      | none => (.upToDate, r1)
      | some _branchName =>
        match r1.tracking with
        | none => (.upToDate, r1)
        | some remoteTip =>
          if !r1.peelRemoteOk then (.error errPeelRemote, r1)
          else if !r1.peelLocalOk then (.error errPeelLocal, r1)
          else if !r1.graphOk then (.error errGraphFailed, r1)
          else if r1.ahead = 0 ∧ r1.behind > 0 then
            if !r1.findLocalRefOk then (.error errFindLocalRef, r1)
            else if !r1.setTargetOk then (.error errSetTarget, r1)
            else
              let r2 := { r1 with branchTip := remoteTip }
              if !r2.checkoutOk then (.error errCheckout, r2)
              else (.fastForwarded r1.behind, { r2 with workdir := remoteTip })
          else if r1.ahead > 0 ∧ r1.behind > 0 then (.divergedSkipped, r1)
          else (.upToDate, r1)

/-- The value `sync_repository` actually hands back to its caller: the Rust
    function has return type `Result<()>`, so every non-error branch returns
    `Ok(())`. -/
def syncRepositoryResult (r : RepoModel) : Except (List Char) Unit :=
  match (syncRepository r).1 with
  | .error e => .error e
  | _ => .ok ()

/-- The persisted `status` column of a repository record
    (spec section 3: `pending | synced | error`). -/
inductive Status where
  | pending
  | synced
  | error
  deriving DecidableEq

/-- The operations that write the `status` column: registration
    (`add_repository`, `src/database.rs` lines 64-74, inserts `'pending'`) and
    the two outcomes of a sync attempt (`src/main.rs` lines 79-91 and
    `src/handlers.rs` lines 302-354 write `'synced'` or `'error'`). -/
inductive RepoOp where
  | register
  | syncSucceed
  | syncFail
  deriving DecidableEq

/-- Status transitions (pairs of previous status and newly written status)
    produced by running a sequence of operations against one record.  The
    record starts absent (`none`); a failed re-registration of an existing
    record and sync requests for an absent record write nothing. -/
def traceTransitions : Option Status → List RepoOp → List (Status × Status)
  | _, [] => []
  | none, .register :: rest => traceTransitions (some .pending) rest
  | none, .syncSucceed :: rest => traceTransitions none rest
  | none, .syncFail :: rest => traceTransitions none rest
  | some s, .register :: rest => traceTransitions (some s) rest
  | some s, .syncSucceed :: rest => (s, .synced) :: traceTransitions (some .synced) rest
  | some s, .syncFail :: rest => (s, .error) :: traceTransitions (some .error) rest

/-- The five transitions listed by the specification (section 3). -/
def specAllowedTransitions : List (Status × Status) :=
  [(.pending, .synced), (.synced, .synced), (.synced, .error), (.error, .synced), (.error, .error)]

/-- The spec's list extended with `pending → error`, which the code produces
    when the first sync attempt after registration fails. -/
def amendedAllowedTransitions : List (Status × Status) :=
  (.pending, .error) :: specAllowedTransitions

/-- A persisted repository record as used by the orchestrator sweep
    (only the fields the sweep touches). -/
structure RepoRecord where
  url : List Char
  status : Status
  lastSynced : Option Nat
  deriving DecidableEq

/-- Embedding of `Database::update_repository_status`
    (`src/database.rs` lines 106-113): update by URL. -/
def updateRepositoryStatus (db : List RepoRecord) (url : List Char) (s : Status) :
    List RepoRecord :=
  db.map fun r => if r.url = url then { r with status := s } else r

/-- Embedding of `Database::update_last_synced`
    (`src/database.rs` lines 115-121): set `last_synced` to the current time. -/
def updateLastSynced (db : List RepoRecord) (url : List Char) (now : Nat) : List RepoRecord :=
  db.map fun r => if r.url = url then { r with lastSynced := some now } else r

/-- The body of the sweep loop in `sync_all_repositories` (`src/main.rs`
    lines 81-89): invoke the sync engine (modelled by the oracle `syncFn`) on
    one record; on failure mark the record `error` and continue, on success
    mark it `synced` and refresh `last_synced`. -/
def syncStep (syncFn : RepoRecord → Except (List Char) Unit) (now : Nat)
    (acc : List RepoRecord) (repo : RepoRecord) : List RepoRecord :=
  match syncFn repo with
  | .error _ => updateRepositoryStatus acc repo.url .error
  | .ok _ => updateLastSynced (updateRepositoryStatus acc repo.url .synced) repo.url now

/-- Embedding of `sync_all_repositories` from `src/main.rs` (lines 79-91):
    read the full repository list once, then run the sweep loop over it. -/
def syncAllRepositories (syncFn : RepoRecord → Except (List Char) Unit) (now : Nat)
    (db : List RepoRecord) : List RepoRecord :=
  db.foldl (syncStep syncFn now) db

/-- The record a sweep is expected to leave behind for `r`, given the sync
    engine's verdict on `r`. -/
def syncRecordOutcome (syncFn : RepoRecord → Except (List Char) Unit) (now : Nat)
    (r : RepoRecord) : RepoRecord :=
  match syncFn r with
  | .error _ => { r with status := .error }
  | .ok _ => { r with status := .synced, lastSynced := some now }

/-- A filesystem: the list of existing paths with an abstract content tag. -/
structure FsState where
  entries : List (List Char × Nat)
  deriving DecidableEq

/-- `Path::exists` on the modelled filesystem. -/
def pathExistsFs (fs : FsState) (p : List Char) : Bool :=
  fs.entries.any fun e => e.1 == p

/-- Embedding of `clone_repository` from `src/git_manager.rs` (lines 23-61):
    derive the repository name, refuse when the target directory already
    exists, otherwise clone the remote (content `remoteContent`, succeeding
    when `cloneOk`).  The result carries the caller's value, the filesystem
    after the call, and whether a clone was attempted. -/
def cloneRepository (basePath : List Char) (fs : FsState) (url : List Char)
    (remoteContent : Nat) (cloneOk : Bool) : Except (List Char) (List Char) × FsState × Bool :=
  match extractRepoNameGit url with
  | .error e => (.error e, fs, false)
  | .ok repoName =>
    let localPath := basePath ++ [sl] ++ repoName
    if pathExistsFs fs localPath then
      (.error ("Repository already exists at ".data ++ localPath), fs, false)
    else if !cloneOk then
      (.error ("clone failed".data), fs, true)
    else
      (.ok localPath, ⟨(localPath, remoteContent) :: fs.entries⟩, true)

/-- The URL shapes named by the specification's testable properties:
    `http(s)://host/org/repo[.git][/]`, `user@host:org/repo.git`,
    and `user@host:repo.git`. -/
inductive UrlKind where
  | httpU
  | httpsU
  | sshOrg
  | sshShort
  deriving DecidableEq

/-- A well-formed URL described by its components. -/
structure UrlParts where
  kind : UrlKind
  user : List Char
  host : List Char
  org : List Char
  repo : List Char
  gitTail : Bool
  slashTail : Bool
  deriving DecidableEq

/-- Render a described URL as the concrete string handed to the
    canonicalizer. -/
def renderUrl (w : UrlParts) : List Char :=
  match w.kind with
  | .httpU =>
      httpPre ++ w.host ++ [sl] ++ w.org ++ [sl] ++ w.repo
        ++ (if w.gitTail then gitEnding else []) ++ (if w.slashTail then [sl] else [])
  | .httpsU =>
      httpsPre ++ w.host ++ [sl] ++ w.org ++ [sl] ++ w.repo
        ++ (if w.gitTail then gitEnding else []) ++ (if w.slashTail then [sl] else [])
  | .sshOrg => w.user ++ ['@'] ++ w.host ++ [':'] ++ w.org ++ [sl] ++ w.repo ++ gitEnding
  | .sshShort => w.user ++ ['@'] ++ w.host ++ [':'] ++ w.repo ++ gitEnding

/-- A URL segment that survives canonicalization verbatim: non-empty and free
    of the separator `/` and of the two characters `:` and `@` that the
    canonicalizer rewrites to `_`. -/
@[reducible] def goodSeg (s : List Char) : Prop :=
  s ≠ [] ∧ sl ∉ s ∧ ':' ∉ s ∧ '@' ∉ s

/-- Well-formedness of a described URL, as assumed by the spec's testable
    properties: every populated segment is a `goodSeg`, the repository segment
    does not itself end in `.git`, and an SSH-shaped URL does not begin with
    an HTTP(S) scheme marker. -/
@[reducible] def wfUrl (w : UrlParts) : Prop :=
  goodSeg w.host ∧ goodSeg w.repo ∧ endsWithSeq w.repo gitEnding = false ∧
  (w.kind = .httpU ∨ w.kind = .httpsU ∨ w.kind = .sshOrg → goodSeg w.org) ∧
  (w.kind = .sshOrg ∨ w.kind = .sshShort →
    goodSeg w.user ∧ httpPre.isPrefixOf (renderUrl w) = false ∧
      httpsPre.isPrefixOf (renderUrl w) = false)

/-- The part of the canonical identifier after the host. -/
def canonTail (w : UrlParts) : List Char :=
  match w.kind with
  | .sshShort => w.repo
  | _ => w.org ++ [sl] ++ w.repo

/-- The canonical identifier the spec promises for a well-formed URL:
    `host/org/repo`, or `host/repo` for the short SSH shape. -/
def canonIdOf (w : UrlParts) : List Char := w.host ++ [sl] ++ canonTail w

instance goodSegDec (s : List Char) : Decidable (goodSeg s) := by
  unfold goodSeg
  infer_instance

instance wfUrlDec (w : UrlParts) : Decidable (wfUrl w) := by
  unfold wfUrl
  infer_instance

/-- The `"http"` scheme name (what precedes `"://"` in `httpPre`). -/
def httpScheme : List Char := "http".data

/-- The `"https"` scheme name (what precedes `"://"` in `httpsPre`). -/
def httpsScheme : List Char := "https".data

/-- The two slashes that follow the colon in `"://"`. -/
def sepTail : List Char := "//".data

/-- A clean repository with uncommitted local modifications (`dirty`), two
    commits behind its remote; used to exercise the `LocalChangesSkipped`
    branch. -/
def repoDirtyEx : RepoModel :=
  { pathExists := true, openOk := true, originOk := true, fetchOk := true,
    remoteBranchTip := some 5, statusesOk := true, dirty := true, headOk := true,
    headShorthand := some ("main".data), peelRemoteOk := true, peelLocalOk := true,
    graphOk := true, ahead := 0, behind := 2, findLocalRefOk := true, setTargetOk := true,
    checkoutOk := true, branchTip := 3, workdir := 3, tracking := some 3 }

/-- A clean repository already at the remote tip; exercises the `UpToDate`
    branch. -/
def repoCurrentEx : RepoModel :=
  { repoDirtyEx with dirty := false, ahead := 0, behind := 0, remoteBranchTip := some 3 }

/-- A clean repository strictly two commits behind its remote; exercises the
    fast-forward branch. -/
def repoBehindEx : RepoModel :=
  { repoDirtyEx with dirty := false, ahead := 0, behind := 2 }

/-- A clean repository that has diverged from its remote (one commit ahead,
    one behind); exercises the `DivergedSkipped` branch. -/
def repoDivergedEx : RepoModel :=
  { repoDirtyEx with dirty := false, ahead := 1, behind := 1 }

/-- A three-record registry used to exercise the sweep. -/
def dbEx : List RepoRecord :=
  [⟨"https://example.com/acme/alpha".data, .pending, none⟩,
   ⟨"https://example.com/acme/beta".data, .pending, none⟩,
   ⟨"https://example.com/acme/gamma".data, .pending, none⟩]

/-- A sync-engine oracle that fails exactly on the middle record of `dbEx`
    (its `local_path` deleted out-of-band). -/
def syncFnEx : RepoRecord → Except (List Char) Unit := fun r =>
  if r.url == "https://example.com/acme/beta".data then
    .error ("Repository path does not exist".data)
  else .ok ()

/-- The repository root used by the clone example. -/
def baseEx : List Char := "./repos".data

/-- A URL whose clone target already exists in `fsEx`. -/
def cloneUrlEx : List Char := "https://example.com/acme/widgets.git".data

/-- The canonical name derived from `cloneUrlEx`. -/
def cloneNameEx : List Char := "example.com/acme/widgets".data

/-- A filesystem in which the clone target of `cloneUrlEx` already exists. -/
def fsEx : FsState := ⟨[(baseEx ++ [sl] ++ cloneNameEx, 7)]⟩

/-- The spec's HTTPS example URL, in described form. -/
def urlPartsHttpsEx : UrlParts :=
  ⟨.httpsU, [], "example.com".data, "acme".data, "widgets".data, true, false⟩

/-- An accepted URL whose organization segment contains `@`. -/
def urlPartsOrgAt : UrlParts :=
  ⟨.httpsU, [], "example.com".data, "acme@corp".data, "widgets".data, false, false⟩

/-- An accepted URL whose organization segment is the `_`-rewritten form of
    the one in `urlPartsOrgAt`. -/
def urlPartsOrgUnder : UrlParts :=
  ⟨.httpsU, [], "example.com".data, "acme_corp".data, "widgets".data, false, false⟩

/-- A well-formed HTTPS URL on host `hosta.example`. -/
def urlPartsHostA : UrlParts :=
  ⟨.httpsU, [], "hosta.example".data, "acme".data, "widgets".data, false, false⟩

/-- A well-formed SSH URL on host `hostb.example`. -/
def urlPartsHostB : UrlParts :=
  ⟨.sshOrg, "git".data, "hostb.example".data, "acme".data, "widgets".data, true, false⟩

/-- A URL whose organization segment is `..`; the derived identifier escapes
    the repository root when used as a path. -/
def travUrl : List Char := "https://example.com/../evil".data

/-- An accepted SSH URL whose parsed host segment contains a `/`. -/
def sshSlashHostUrlA : List Char := "git@example.com/x:widgets.git".data

/-- An accepted SSH URL on host `example.com` whose identifier collides with
    the one derived from `sshSlashHostUrlA`. -/
def sshSlashHostUrlB : List Char := "git@example.com:x/widgets.git".data

/-- An accepted HTTPS URL with a fourth path segment (organization `teamA`). -/
def urlReviewA : List Char := "https://example.com/teamA/widgets/v2".data

/-- An accepted HTTPS URL with a fourth path segment (organization `teamB`). -/
def urlReviewB : List Char := "https://example.com/teamB/widgets/v2".data

theorem isPrefixOf_append_self (p t : List Char) : p.isPrefixOf (p ++ t) = true := by
  induction p with
  | nil => simp [List.isPrefixOf]
  | cons a as ih => simp [List.isPrefixOf, ih]

theorem endsWithSeq_append_self (l pat : List Char) : endsWithSeq (l ++ pat) pat = true := by
  simp [endsWithSeq, List.reverse_append, isPrefixOf_append_self]

theorem endsWithSeq_single_false (a r : List Char) (c : Char) (hr : r ≠ []) (hc : c ∉ r) :
    endsWithSeq (a ++ r) [c] = false := by
  obtain ⟨x, t, hx⟩ : ∃ x t, r.reverse = x :: t := by
    cases hrev : r.reverse with
    | nil => exact absurd (List.reverse_eq_nil_iff.mp hrev) hr
    | cons x t => exact ⟨x, t, rfl⟩
  have hxr : x ∈ r := by
    have hm : x ∈ r.reverse := by rw [hx]; exact List.mem_cons_self _ _
    exact List.mem_reverse.mp hm
  have hne : ¬ (c = x) := fun e => hc (e ▸ hxr)
  simp [endsWithSeq, List.reverse_append, hx, List.isPrefixOf, hne]

theorem trimEndFuel_no (pat : List Char) (f : Nat) (l : List Char)
    (h : endsWithSeq l pat = false) : trimEndFuel pat f l = l := by
  cases f with
  | zero => rfl
  | succ f => simp [trimEndFuel, h]

theorem trimEndFuel_append (pat : List Char) (hp : pat ≠ []) (f : Nat) (l : List Char) :
    trimEndFuel pat (f + 1) (l ++ pat) = trimEndFuel pat f l := by
  have hend := endsWithSeq_append_self l pat
  have hne : (!pat.isEmpty) = true := by
    cases pat with
    | nil => exact absurd rfl hp
    | cons a as => rfl
  simp only [trimEndFuel, hend, hne, Bool.and_self, if_true]
  rw [List.length_append, Nat.add_sub_cancel, List.take_left]

theorem trimEndMatches_no (pat l : List Char) (h : endsWithSeq l pat = false) :
    trimEndMatches pat l = l := trimEndFuel_no pat l.length l h

theorem trimEndMatches_git_append (r : List Char) (h : endsWithSeq r gitEnding = false) :
    trimEndMatches gitEnding (r ++ gitEnding) = r := by
  have h4 : gitEnding.length = 4 := rfl
  have hlen : (r ++ gitEnding).length = r.length + 3 + 1 := by rw [List.length_append, h4]
  unfold trimEndMatches
  rw [hlen, trimEndFuel_append gitEnding (by decide), trimEndFuel_no _ _ _ h]

theorem trimEndMatches_slash_append (l : List Char) (h : endsWithSeq l [sl] = false) :
    trimEndMatches [sl] (l ++ [sl]) = l := by
  have hlen : (l ++ [sl]).length = l.length + 1 := by simp
  unfold trimEndMatches
  rw [hlen, trimEndFuel_append [sl] (by decide), trimEndFuel_no _ _ _ h]

theorem splitOnChar_no (c : Char) (l : List Char) (h : c ∉ l) : splitOnChar c l = [l] := by
  induction l with
  | nil => rfl
  | cons x xs ih =>
    have hx : ¬ (x = c) := fun e => h (e ▸ List.mem_cons_self x xs)
    have hxs : c ∉ xs := fun hm => h (List.mem_cons_of_mem _ hm)
    simp only [splitOnChar, hx, if_false, ih hxs]

theorem splitOnChar_append (c : Char) (a b : List Char) (h : c ∉ a) :
    splitOnChar c (a ++ c :: b) = a :: splitOnChar c b := by
  induction a with
  | nil => simp [splitOnChar]
  | cons x a' ih =>
    have hx : ¬ (x = c) := fun e => h (e ▸ List.mem_cons_self x a')
    have ha' : c ∉ a' := fun hm => h (List.mem_cons_of_mem _ hm)
    have hrec := ih ha'
    simp only [List.cons_append, splitOnChar, hx, if_false, List.append_eq] at hrec ⊢
    rw [hrec]

theorem splitSeqFuel_no (p0 : Char) (pr : List Char) :
    ∀ (f : Nat) (l acc : List Char), l.length < f → p0 ∉ l →
      splitSeqFuel (p0 :: pr) f l acc = [acc.reverse ++ l] := by
  intro f
  induction f with
  | zero => intro l acc h _; exact absurd h (Nat.not_lt_zero _)
  | succ f ih =>
    intro l acc h hp
    cases l with
    | nil => simp [splitSeqFuel]
    | cons c cs =>
      have hc : ¬ (p0 = c) := fun e => hp (e ▸ List.mem_cons_self c cs)
      have hpre : (p0 :: pr).isPrefixOf (c :: cs) = false := by
        simp [List.isPrefixOf, hc]
      have hcs : p0 ∉ cs := fun hm => hp (List.mem_cons_of_mem _ hm)
      have hlt : cs.length < f := Nat.lt_of_succ_lt_succ h
      simp [splitSeqFuel, hpre, ih cs (c :: acc) hlt hcs]

theorem splitSeqFuel_two (p0 : Char) (pr : List Char) :
    ∀ (a : List Char) (f : Nat) (acc b : List Char),
      a.length + b.length + 1 < f → p0 ∉ a → p0 ∉ b →
      splitSeqFuel (p0 :: pr) f (a ++ (p0 :: pr) ++ b) acc = [acc.reverse ++ a, b] := by
  intro a
  induction a with
  | nil =>
    intro f acc b h _ hb
    cases f with
    | zero => exact absurd h (Nat.not_lt_zero _)
    | succ f =>
      have hlt : b.length < f := by
        simpa using Nat.lt_of_succ_lt_succ h
      have hpre : (p0 :: pr).isPrefixOf (p0 :: (pr ++ b)) = true := by
        have hsp := isPrefixOf_append_self (p0 :: pr) b
        simp only [List.cons_append] at hsp
        exact hsp
      simp only [List.nil_append, List.cons_append, splitSeqFuel, hpre, if_true]
      have hdrop : (p0 :: (pr ++ b)).drop (p0 :: pr).length = b := by
        have hdl := List.drop_left (p0 :: pr) b
        simp only [List.cons_append] at hdl
        exact hdl
      rw [hdrop, splitSeqFuel_no p0 pr f b [] hlt hb]
      simp
  | cons x a' ih =>
    intro f acc b h hx hb
    cases f with
    | zero => exact absurd h (Nat.not_lt_zero _)
    | succ f =>
      have hne : ¬ (p0 = x) := fun e => hx (e ▸ List.mem_cons_self x a')
      have hpre : (p0 :: pr).isPrefixOf (x :: (a' ++ (p0 :: pr) ++ b)) = false := by
        simp [List.isPrefixOf, hne]
      have ha' : p0 ∉ a' := fun hm => hx (List.mem_cons_of_mem _ hm)
      have hlt : a'.length + b.length + 1 < f := by
        simp only [List.length_cons] at h
        omega
      have hrec := ih f (x :: acc) b hlt ha' hb
      simp only [List.cons_append, splitSeqFuel, hpre, if_false]
      rw [hrec]
      simp

theorem splitSeq_two (p0 : Char) (pr a b : List Char) (ha : p0 ∉ a) (hb : p0 ∉ b) :
    splitSeq (p0 :: pr) (a ++ (p0 :: pr) ++ b) = [a, b] := by
  unfold splitSeq
  have hlen : a.length + b.length + 1 < (a ++ (p0 :: pr) ++ b).length + 1 := by
    simp [List.length_append]
    omega
  rw [splitSeqFuel_two p0 pr a _ [] b hlen ha hb]
  simp

theorem replaceChar_no (a b : Char) (l : List Char) (h : a ∉ l) : replaceChar a b l = l := by
  induction l with
  | nil => rfl
  | cons x xs ih =>
    have hx : ¬ (x = a) := fun e => h (e ▸ List.mem_cons_self x xs)
    have hxs : a ∉ xs := fun hm => h (List.mem_cons_of_mem _ hm)
    have hxs' := ih hxs
    simp only [replaceChar, List.map_cons, hx, if_false] at hxs' ⊢
    rw [hxs']

theorem extract_http_shape (sch host org repo gp ts : List Char)
    (hsch : sch = httpScheme ∨ sch = httpsScheme)
    (hhost : goodSeg host) (horg : goodSeg org) (hrepo : goodSeg repo)
    (hgit : endsWithSeq repo gitEnding = false)
    (hgp : gp = [] ∨ gp = gitEnding)
    (hts : ts = [] ∨ ts = [sl]) :
    extractRepoNameGit (sch ++ schemeSep ++ host ++ [sl] ++ org ++ [sl] ++ repo ++ gp ++ ts)
      = .ok (host ++ [sl] ++ org ++ [sl] ++ repo) := by
  have hnoslash :
      endsWithSeq (sch ++ schemeSep ++ host ++ [sl] ++ org ++ [sl] ++ repo ++ gp) [sl]
        = false := by
    rcases hgp with rfl | rfl
    · rw [List.append_nil]
      exact endsWithSeq_single_false _ repo sl hrepo.1 hrepo.2.1
    · exact endsWithSeq_single_false _ gitEnding sl (by decide) (by decide)
  have hurl :
      trimEndMatches [sl] (sch ++ schemeSep ++ host ++ [sl] ++ org ++ [sl] ++ repo ++ gp ++ ts)
        = sch ++ schemeSep ++ host ++ [sl] ++ org ++ [sl] ++ repo ++ gp := by
    rcases hts with rfl | rfl
    · rw [List.append_nil]
      exact trimEndMatches_no _ _ hnoslash
    · exact trimEndMatches_slash_append _ hnoslash
  have hcolon_rest : ':' ∉ host ++ [sl] ++ org ++ [sl] ++ repo ++ gp := by
    rcases hgp with rfl | rfl <;>
      simp [List.mem_append, hhost.2.2.1, horg.2.2.1, hrepo.2.2.1,
        (by decide : ¬ (':' = sl)), (by decide : ':' ∉ gitEnding)]
  have hsplit :
      splitSeq schemeSep (sch ++ schemeSep ++ host ++ [sl] ++ org ++ [sl] ++ repo ++ gp)
        = [sch, host ++ [sl] ++ org ++ [sl] ++ repo ++ gp] := by
    have hcolon_sch : ':' ∉ sch := by rcases hsch with rfl | rfl <;> decide
    have h2 := splitSeq_two ':' sepTail sch (host ++ [sl] ++ org ++ [sl] ++ repo ++ gp)
      hcolon_sch hcolon_rest
    rw [show (':' :: sepTail) = schemeSep from rfl] at h2
    have hassoc : sch ++ schemeSep ++ host ++ [sl] ++ org ++ [sl] ++ repo ++ gp
        = sch ++ schemeSep ++ (host ++ [sl] ++ org ++ [sl] ++ repo ++ gp) := by
      simp [List.append_assoc]
    rw [hassoc]
    exact h2
  have hget : (splitSeq schemeSep
      (sch ++ schemeSep ++ host ++ [sl] ++ org ++ [sl] ++ repo ++ gp)).get? 1
        = some (host ++ [sl] ++ org ++ [sl] ++ repo ++ gp) := by
    rw [hsplit]
    rfl
  have hsl_rest : sl ∉ repo ++ gp := by
    rcases hgp with rfl | rfl <;>
      simp [List.mem_append, hrepo.2.1, (by decide : sl ∉ gitEnding)]
  have hparts : splitOnChar sl (host ++ [sl] ++ org ++ [sl] ++ repo ++ gp)
      = [host, org, repo ++ gp] := by
    have hshape : host ++ [sl] ++ org ++ [sl] ++ repo ++ gp
        = host ++ sl :: (org ++ sl :: (repo ++ gp)) := by
      simp [List.append_assoc]
    rw [hshape, splitOnChar_append sl host _ hhost.2.1,
      splitOnChar_append sl org _ horg.2.1, splitOnChar_no sl _ hsl_rest]
  have htrim : trimEndMatches gitEnding (repo ++ gp) = repo := by
    rcases hgp with rfl | rfl
    · rw [List.append_nil]
      exact trimEndMatches_no _ _ hgit
    · exact trimEndMatches_git_append repo hgit
  have hprefOr :
      (httpPre.isPrefixOf (sch ++ schemeSep ++ host ++ [sl] ++ org ++ [sl] ++ repo ++ gp)
        || httpsPre.isPrefixOf (sch ++ schemeSep ++ host ++ [sl] ++ org ++ [sl] ++ repo ++ gp))
        = true := by
    rcases hsch with rfl | rfl
    · have heq : httpScheme ++ schemeSep ++ host ++ [sl] ++ org ++ [sl] ++ repo ++ gp
          = httpPre ++ (host ++ [sl] ++ org ++ [sl] ++ repo ++ gp) := by
        rw [show httpPre = httpScheme ++ schemeSep from rfl]
        simp [List.append_assoc]
      rw [heq, isPrefixOf_append_self]
      simp
    · have heq : httpsScheme ++ schemeSep ++ host ++ [sl] ++ org ++ [sl] ++ repo ++ gp
          = httpsPre ++ (host ++ [sl] ++ org ++ [sl] ++ repo ++ gp) := by
        rw [show httpsPre = httpsScheme ++ schemeSep from rfl]
        simp [List.append_assoc]
      rw [heq, isPrefixOf_append_self]
      simp
  have hempty : (host ++ [sl] ++ org ++ [sl] ++ repo).isEmpty = false := by
    obtain ⟨x, xs, hx⟩ : ∃ x xs, host = x :: xs := by
      cases host with
      | nil => exact absurd rfl hhost.1
      | cons x xs => exact ⟨x, xs, rfl⟩
    rw [hx]
    rfl
  have hrep1 : replaceChar ':' '_' (host ++ [sl] ++ org ++ [sl] ++ repo)
      = host ++ [sl] ++ org ++ [sl] ++ repo := by
    refine replaceChar_no _ _ _ ?_
    simp [List.mem_append, hhost.2.2.1, horg.2.2.1, hrepo.2.2.1, (by decide : ¬ (':' = sl))]
  have hrep2 : replaceChar '@' '_' (host ++ [sl] ++ org ++ [sl] ++ repo)
      = host ++ [sl] ++ org ++ [sl] ++ repo := by
    refine replaceChar_no _ _ _ ?_
    simp [List.mem_append, hhost.2.2.2, horg.2.2.2, hrepo.2.2.2, (by decide : ¬ ('@' = sl))]
  simp at hurl hprefOr hget hparts htrim hempty hrep1 hrep2
  simp [extractRepoNameGit, hurl, hprefOr, hget, hparts, htrim, hempty, hrep1, hrep2]

theorem extract_ssh_org_shape (user host org repo : List Char)
    (huser : goodSeg user) (hhost : goodSeg host) (horg : goodSeg org) (hrepo : goodSeg repo)
    (hgit : endsWithSeq repo gitEnding = false)
    (hp1 : httpPre.isPrefixOf
      (user ++ ['@'] ++ host ++ [':'] ++ org ++ [sl] ++ repo ++ gitEnding) = false)
    (hp2 : httpsPre.isPrefixOf
      (user ++ ['@'] ++ host ++ [':'] ++ org ++ [sl] ++ repo ++ gitEnding) = false) :
    extractRepoNameGit (user ++ ['@'] ++ host ++ [':'] ++ org ++ [sl] ++ repo ++ gitEnding)
      = .ok (host ++ [sl] ++ org ++ [sl] ++ repo) := by
  have hurl : trimEndMatches [sl]
      (user ++ ['@'] ++ host ++ [':'] ++ org ++ [sl] ++ repo ++ gitEnding)
        = user ++ ['@'] ++ host ++ [':'] ++ org ++ [sl] ++ repo ++ gitEnding :=
    trimEndMatches_no _ _ (endsWithSeq_single_false _ gitEnding sl (by decide) (by decide))
  have hat : '@' ∈ user ++ ['@'] ++ host ++ [':'] ++ org ++ [sl] ++ repo ++ gitEnding := by
    simp [List.mem_append]
  have hatrest : '@' ∉ host ++ ':' :: (org ++ sl :: (repo ++ gitEnding)) := by
    simp [List.mem_append, hhost.2.2.2, horg.2.2.2, hrepo.2.2.2,
      (by decide : ¬ ('@' = ':')), (by decide : ¬ ('@' = sl)), (by decide : '@' ∉ gitEnding)]
  have hsplitAt : splitOnChar '@'
      (user ++ ['@'] ++ host ++ [':'] ++ org ++ [sl] ++ repo ++ gitEnding)
        = [user, host ++ ':' :: (org ++ sl :: (repo ++ gitEnding))] := by
    have hshape : user ++ ['@'] ++ host ++ [':'] ++ org ++ [sl] ++ repo ++ gitEnding
        = user ++ '@' :: (host ++ ':' :: (org ++ sl :: (repo ++ gitEnding))) := by
      simp [List.append_assoc]
    rw [hshape, splitOnChar_append '@' user _ huser.2.2.2,
      splitOnChar_no '@' _ hatrest]
  have hcolonrest : ':' ∉ org ++ sl :: (repo ++ gitEnding) := by
    simp [List.mem_append, horg.2.2.1, hrepo.2.2.1,
      (by decide : ¬ (':' = sl)), (by decide : ':' ∉ gitEnding)]
  have hsplitColon : splitOnChar ':' (host ++ ':' :: (org ++ sl :: (repo ++ gitEnding)))
      = [host, org ++ sl :: (repo ++ gitEnding)] := by
    rw [splitOnChar_append ':' host _ hhost.2.2.1, splitOnChar_no ':' _ hcolonrest]
  have hslrest : sl ∉ repo ++ gitEnding := by
    simp [List.mem_append, hrepo.2.1, (by decide : sl ∉ gitEnding)]
  have hsplitSl : splitOnChar sl (org ++ sl :: (repo ++ gitEnding))
      = [org, repo ++ gitEnding] := by
    rw [splitOnChar_append sl org _ horg.2.1, splitOnChar_no sl _ hslrest]
  have htrim : trimEndMatches gitEnding (repo ++ gitEnding) = repo :=
    trimEndMatches_git_append repo hgit
  have hempty : (host ++ [sl] ++ org ++ [sl] ++ repo).isEmpty = false := by
    obtain ⟨x, xs, hx⟩ : ∃ x xs, host = x :: xs := by
      cases host with
      | nil => exact absurd rfl hhost.1
      | cons x xs => exact ⟨x, xs, rfl⟩
    rw [hx]
    rfl
  have hrep1 : replaceChar ':' '_' (host ++ [sl] ++ org ++ [sl] ++ repo)
      = host ++ [sl] ++ org ++ [sl] ++ repo := by
    refine replaceChar_no _ _ _ ?_
    simp [List.mem_append, hhost.2.2.1, horg.2.2.1, hrepo.2.2.1, (by decide : ¬ (':' = sl))]
  have hrep2 : replaceChar '@' '_' (host ++ [sl] ++ org ++ [sl] ++ repo)
      = host ++ [sl] ++ org ++ [sl] ++ repo := by
    refine replaceChar_no _ _ _ ?_
    simp [List.mem_append, hhost.2.2.2, horg.2.2.2, hrepo.2.2.2, (by decide : ¬ ('@' = sl))]
  simp at hurl hp1 hp2 hat hsplitAt hsplitColon hsplitSl htrim hempty hrep1 hrep2
  simp [extractRepoNameGit, hurl, hp1, hp2, hat, hsplitAt, hsplitColon, hsplitSl, htrim,
    hempty, hrep1, hrep2]

theorem extract_ssh_short_shape (user host repo : List Char)
    (huser : goodSeg user) (hhost : goodSeg host) (hrepo : goodSeg repo)
    (hgit : endsWithSeq repo gitEnding = false)
    (hp1 : httpPre.isPrefixOf (user ++ ['@'] ++ host ++ [':'] ++ repo ++ gitEnding) = false)
    (hp2 : httpsPre.isPrefixOf (user ++ ['@'] ++ host ++ [':'] ++ repo ++ gitEnding) = false) :
    extractRepoNameGit (user ++ ['@'] ++ host ++ [':'] ++ repo ++ gitEnding)
      = .ok (host ++ [sl] ++ repo) := by
  have hurl : trimEndMatches [sl] (user ++ ['@'] ++ host ++ [':'] ++ repo ++ gitEnding)
      = user ++ ['@'] ++ host ++ [':'] ++ repo ++ gitEnding :=
    trimEndMatches_no _ _ (endsWithSeq_single_false _ gitEnding sl (by decide) (by decide))
  have hat : '@' ∈ user ++ ['@'] ++ host ++ [':'] ++ repo ++ gitEnding := by
    simp [List.mem_append]
  have hatrest : '@' ∉ host ++ ':' :: (repo ++ gitEnding) := by
    simp [List.mem_append, hhost.2.2.2, hrepo.2.2.2,
      (by decide : ¬ ('@' = ':')), (by decide : '@' ∉ gitEnding)]
  have hsplitAt : splitOnChar '@' (user ++ ['@'] ++ host ++ [':'] ++ repo ++ gitEnding)
      = [user, host ++ ':' :: (repo ++ gitEnding)] := by
    have hshape : user ++ ['@'] ++ host ++ [':'] ++ repo ++ gitEnding
        = user ++ '@' :: (host ++ ':' :: (repo ++ gitEnding)) := by
      simp [List.append_assoc]
    rw [hshape, splitOnChar_append '@' user _ huser.2.2.2, splitOnChar_no '@' _ hatrest]
  have hcolonrest : ':' ∉ repo ++ gitEnding := by
    simp [List.mem_append, hrepo.2.2.1, (by decide : ':' ∉ gitEnding)]
  have hsplitColon : splitOnChar ':' (host ++ ':' :: (repo ++ gitEnding))
      = [host, repo ++ gitEnding] := by
    rw [splitOnChar_append ':' host _ hhost.2.2.1, splitOnChar_no ':' _ hcolonrest]
  have hslrest : sl ∉ repo ++ gitEnding := by
    simp [List.mem_append, hrepo.2.1, (by decide : sl ∉ gitEnding)]
  have hsplitSl : splitOnChar sl (repo ++ gitEnding) = [repo ++ gitEnding] :=
    splitOnChar_no sl _ hslrest
  have htrim : trimEndMatches gitEnding (repo ++ gitEnding) = repo :=
    trimEndMatches_git_append repo hgit
  have hempty : (host ++ [sl] ++ repo).isEmpty = false := by
    obtain ⟨x, xs, hx⟩ : ∃ x xs, host = x :: xs := by
      cases host with
      | nil => exact absurd rfl hhost.1
      | cons x xs => exact ⟨x, xs, rfl⟩
    rw [hx]
    rfl
  have hrep1 : replaceChar ':' '_' (host ++ [sl] ++ repo) = host ++ [sl] ++ repo := by
    refine replaceChar_no _ _ _ ?_
    simp [List.mem_append, hhost.2.2.1, hrepo.2.2.1, (by decide : ¬ (':' = sl))]
  have hrep2 : replaceChar '@' '_' (host ++ [sl] ++ repo) = host ++ [sl] ++ repo := by
    refine replaceChar_no _ _ _ ?_
    simp [List.mem_append, hhost.2.2.2, hrepo.2.2.2, (by decide : ¬ ('@' = sl))]
  simp at hurl hp1 hp2 hat hsplitAt hsplitColon hsplitSl htrim hempty hrep1 hrep2
  simp [extractRepoNameGit, hurl, hp1, hp2, hat, hsplitAt, hsplitColon, hsplitSl, htrim,
    hempty, hrep1, hrep2]

theorem extract_render (w : UrlParts) (hw : wfUrl w) :
    extractRepoNameGit (renderUrl w) = .ok (canonIdOf w) := by
  obtain ⟨k, u, host, org, repo, g, t⟩ := w
  obtain ⟨hhost, hrepo, hgit, horgF, hsshF⟩ := hw
  cases k with
  | httpU =>
    have horg := horgF (Or.inl rfl)
    have hre : renderUrl ⟨.httpU, u, host, org, repo, g, t⟩
        = httpScheme ++ schemeSep ++ host ++ [sl] ++ org ++ [sl] ++ repo
          ++ (if g then gitEnding else []) ++ (if t then [sl] else []) := by
      show httpPre ++ host ++ [sl] ++ org ++ [sl] ++ repo
          ++ (if g then gitEnding else []) ++ (if t then [sl] else []) = _
      rw [show httpPre = httpScheme ++ schemeSep from rfl]
    have hsh := extract_http_shape httpScheme host org repo
      (if g then gitEnding else []) (if t then [sl] else []) (Or.inl rfl) hhost horg hrepo hgit
      (by cases g <;> simp) (by cases t <;> simp)
    rw [hre, hsh]
    show _ = Except.ok (host ++ [sl] ++ (org ++ [sl] ++ repo))
    simp [List.append_assoc]
  | httpsU =>
    have horg := horgF (Or.inr (Or.inl rfl))
    have hre : renderUrl ⟨.httpsU, u, host, org, repo, g, t⟩
        = httpsScheme ++ schemeSep ++ host ++ [sl] ++ org ++ [sl] ++ repo
          ++ (if g then gitEnding else []) ++ (if t then [sl] else []) := by
      show httpsPre ++ host ++ [sl] ++ org ++ [sl] ++ repo
          ++ (if g then gitEnding else []) ++ (if t then [sl] else []) = _
      rw [show httpsPre = httpsScheme ++ schemeSep from rfl]
    have hsh := extract_http_shape httpsScheme host org repo
      (if g then gitEnding else []) (if t then [sl] else []) (Or.inr rfl) hhost horg hrepo hgit
      (by cases g <;> simp) (by cases t <;> simp)
    rw [hre, hsh]
    show _ = Except.ok (host ++ [sl] ++ (org ++ [sl] ++ repo))
    simp [List.append_assoc]
  | sshOrg =>
    have horg := horgF (Or.inr (Or.inr rfl))
    obtain ⟨huser, hp1, hp2⟩ := hsshF (Or.inl rfl)
    have hre : renderUrl ⟨.sshOrg, u, host, org, repo, g, t⟩
        = u ++ ['@'] ++ host ++ [':'] ++ org ++ [sl] ++ repo ++ gitEnding := rfl
    rw [hre] at hp1 hp2
    rw [hre, extract_ssh_org_shape u host org repo huser hhost horg hrepo hgit hp1 hp2]
    show _ = Except.ok (host ++ [sl] ++ (org ++ [sl] ++ repo))
    simp [List.append_assoc]
  | sshShort =>
    obtain ⟨huser, hp1, hp2⟩ := hsshF (Or.inr rfl)
    have hre : renderUrl ⟨.sshShort, u, host, org, repo, g, t⟩
        = u ++ ['@'] ++ host ++ [':'] ++ repo ++ gitEnding := rfl
    rw [hre] at hp1 hp2
    rw [hre, extract_ssh_short_shape u host repo huser hhost hrepo hgit hp1 hp2]
    rfl

theorem append_sep_inj (c : Char) :
    ∀ (a b a2 b2 : List Char), c ∉ a → c ∉ a2 →
      a ++ c :: b = a2 ++ c :: b2 → a = a2 ∧ b = b2 := by
  intro a
  induction a with
  | nil =>
    intro b a2 b2 _ ha2 heq
    cases a2 with
    | nil =>
      simp only [List.nil_append] at heq
      exact ⟨rfl, (List.cons.injEq c b c b2).mp heq |>.2⟩
    | cons y a2' =>
      simp only [List.nil_append, List.cons_append] at heq
      have hcy : c = y := ((List.cons.injEq c b y (a2' ++ c :: b2)).mp heq).1
      exact absurd (by rw [hcy]; exact List.mem_cons_self y a2') ha2
  | cons x a' ih =>
    intro b a2 b2 hx ha2 heq
    cases a2 with
    | nil =>
      simp only [List.nil_append, List.cons_append] at heq
      have hxc : x = c := ((List.cons.injEq x (a' ++ c :: b) c b2).mp heq).1
      exact absurd (by rw [← hxc]; exact List.mem_cons_self x a') hx
    | cons y a2' =>
      simp only [List.cons_append] at heq
      have h1 := ((List.cons.injEq x (a' ++ c :: b) y (a2' ++ c :: b2)).mp heq).1
      have h2 := ((List.cons.injEq x (a' ++ c :: b) y (a2' ++ c :: b2)).mp heq).2
      obtain ⟨hac, hbd⟩ := ih b a2' b2
        (fun hm => hx (List.mem_cons_of_mem _ hm))
        (fun hm => ha2 (List.mem_cons_of_mem _ hm)) h2
      exact ⟨by rw [h1, hac], hbd⟩

/-- `canonTail` spelled out for the three shapes that carry an organization. -/
theorem canonTail_with_org (w : UrlParts) (hk : w.kind ≠ .sshShort) :
    canonTail w = w.org ++ sl :: w.repo := by
  obtain ⟨k, u, host, org, repo, g, t⟩ := w
  cases k with
  | sshShort => exact absurd rfl hk
  | httpU => simp [canonTail]
  | httpsU => simp [canonTail]
  | sshOrg => simp [canonTail]


theorem splitOnChar_not_mem (c : Char) : ∀ (l : List Char), ∀ s ∈ splitOnChar c l, c ∉ s := by
  intro l
  induction l with
  | nil =>
    intro s hs
    simp only [splitOnChar, List.mem_singleton] at hs
    subst hs
    exact List.not_mem_nil c
  | cons x xs ih =>
    intro s hs
    by_cases hx : x = c
    · simp only [splitOnChar, hx, if_true] at hs
      rcases List.mem_cons.mp hs with rfl | hs'
      · exact List.not_mem_nil c
      · exact ih s hs'
    · simp only [splitOnChar, hx, if_false] at hs
      cases hsp : splitOnChar c xs with
      | nil =>
        rw [hsp] at hs
        simp only [List.mem_singleton] at hs
        subst hs
        intro hm
        rcases List.mem_cons.mp hm with he | hm'
        · exact hx he.symm
        · exact List.not_mem_nil c hm'
      | cons s0 ss =>
        rw [hsp] at hs
        rcases List.mem_cons.mp hs with rfl | hs'
        · intro hm
          rcases List.mem_cons.mp hm with he | hm'
          · exact hx he.symm
          · exact ih s0 (by rw [hsp]; exact List.mem_cons_self s0 ss) hm'
        · exact ih s (by rw [hsp]; exact List.mem_cons_of_mem _ hs')

theorem not_mem_replaceChar (a b c : Char) (l : List Char) (hc : c ∉ l) (hb : c ≠ b) :
    c ∉ replaceChar a b l := by
  intro hm
  unfold replaceChar at hm
  obtain ⟨x, hx, hfx⟩ := List.mem_map.mp hm
  by_cases hxa : x = a
  · rw [if_pos hxa] at hfx
    exact hb hfx.symm
  · rw [if_neg hxa] at hfx
    exact hc (hfx ▸ hx)

theorem replace2_append_sl (x y : List Char) :
    replaceChar '@' '_' (replaceChar ':' '_' (x ++ sl :: y))
      = replaceChar '@' '_' (replaceChar ':' '_' x)
        ++ sl :: replaceChar '@' '_' (replaceChar ':' '_' y) := by
  simp [replaceChar, (by decide : ¬ (sl = ':')), (by decide : ¬ (sl = '@'))]

/-- Every identifier the canonicalizer accepts is the `:`/`@`-substitution of
`host ++ "/" ++ tail`, where `host` is the host segment the parse bound and
`tail` starts with the organization segment (slash-free, as a split piece)
whenever the URL has one. -/
theorem extract_ok_structure (u id : List Char) (h : extractRepoNameGit u = .ok id) :
    ∃ host tail,
      urlHost u = some host ∧
      id = replaceChar '@' '_' (replaceChar ':' '_' (host ++ sl :: tail)) ∧
      ((∃ org repoT, urlOrg u = some org ∧ sl ∉ org ∧ tail = org ++ sl :: repoT) ∨
        urlOrg u = none) := by
  simp only [extractRepoNameGit] at h
  split at h
  · exact absurd h (by simp)
  · rename_i p heq
    split at h
    · exact absurd h (by simp)
    · rename_i hne
      have hid : id = replaceChar '@' '_' (replaceChar ':' '_' p) := (Except.ok.inj h).symm
      split at heq
      · rename_i hcond
        split at heq
        · exact absurd heq (by simp)
        · rename_i w hget
          split at heq
          · rename_i host org repoSeg rest hsplit
            have hp := Except.ok.inj heq
            have hget2 : (splitSeq schemeSep (trimEndMatches [sl] u))[1]? = some w := by
              rw [← List.get?_eq_getElem?]
              exact hget
            refine ⟨host, org ++ sl :: trimEndMatches gitEnding repoSeg, ?_, ?_, ?_⟩
            · simp [urlHost, hcond, hget2, hsplit]
            · rw [hid, ← hp]
              congr 1
              simp [List.append_assoc]
            · refine Or.inl ⟨org, trimEndMatches gitEnding repoSeg, ?_, ?_, rfl⟩
              · simp [urlOrg, hcond, hget2, hsplit]
              · have hm : org ∈ splitOnChar sl w := by
                  rw [hsplit]
                  exact List.mem_cons_of_mem _ (List.mem_cons_self _ _)
                exact splitOnChar_not_mem sl w org hm
          · exact absurd heq (by simp)
      · rename_i hcond
        split at heq
        · rename_i hat
          split at heq
          · rename_i user hostAndPath hsplitAt
            split at heq
            · rename_i host path hsplitColon
              split at heq
              · rename_i org repoSeg hsplitSl
                have hp := Except.ok.inj heq
                refine ⟨host, org ++ sl :: trimEndMatches gitEnding repoSeg, ?_, ?_, ?_⟩
                · simp [urlHost, hcond, hat, hsplitAt, hsplitColon]
                · rw [hid, ← hp]
                  congr 1
                  simp [List.append_assoc]
                · refine Or.inl ⟨org, trimEndMatches gitEnding repoSeg, ?_, ?_, rfl⟩
                  · simp [urlOrg, hcond, hat, hsplitAt, hsplitColon, hsplitSl]
                  · have hm : org ∈ splitOnChar sl path := by
                      rw [hsplitSl]
                      exact List.mem_cons_self _ _
                    exact splitOnChar_not_mem sl path org hm
              · rename_i repoSeg hsplitSl
                have hp := Except.ok.inj heq
                refine ⟨host, trimEndMatches gitEnding repoSeg, ?_, ?_, Or.inr ?_⟩
                · simp [urlHost, hcond, hat, hsplitAt, hsplitColon]
                · rw [hid, ← hp]
                  congr 1
                  simp [List.append_assoc]
                · simp [urlOrg, hcond, hat, hsplitAt, hsplitColon, hsplitSl]
              · exact absurd heq (by simp)
            · exact absurd heq (by simp)
          · exact absurd heq (by simp)
        · exact absurd heq (by simp)

/-- Claim C4: for every well-formed URL of the shapes
`http(s)://host/org/repo[.git]` (up to a stripped trailing slash),
`user@host:org/repo.git` and `user@host:repo.git`, the canonicalizer
succeeds and returns exactly `host/org/repo` (resp. `host/repo` for the
short SSH shape), with the trailing `.git` stripped from the repository
segment. -/
theorem canonicalizer_wellformed_urls (w : UrlParts) (hw : wfUrl w) :
    extractRepoNameGit (renderUrl w) = .ok (canonIdOf w) :=
  extract_render w hw

/-- Witness for C4: the spec's example `https://example.com/acme/widgets.git`
canonicalizes to `example.com/acme/widgets`. -/
theorem canonicalizer_wellformed_urls_witness :
    extractRepoNameGit (renderUrl urlPartsHttpsEx) = .ok ("example.com/acme/widgets".data) :=
  (canonicalizer_wellformed_urls urlPartsHttpsEx (by decide)).trans (by decide)

/-- Claim C5 (code bug): the canonicalizer accepts `https://example.com/../evil`
and returns the identifier `example.com/../evil`, whose middle path segment is
`..` — the input is not rejected, so the identifier can escape the repository
root when used as a path. -/
theorem canonicalizer_accepts_dotdot :
    extractRepoNameGit travUrl = .ok ("example.com/../evil".data) ∧
    ("..".data) ∈ splitOnChar sl ("example.com/../evil".data) := by decide

/-- Claim C10: the copy of `extract_repo_name` in `src/handlers.rs` and the
copy in `src/git_manager.rs` are extensionally equal — they are textually
identical in the source, so their embeddings coincide on every input. -/
theorem extract_repo_name_copies_agree (u : List Char) :
    extractRepoNameHandlers u = extractRepoNameGit u := rfl

/-- Claim C8 is false as stated, in two ways.  First, the accepted URLs
`https://example.com/acme@corp/widgets` and
`https://example.com/acme_corp/widgets` name the same host but different
organizations, yet both canonicalize to `example.com/acme_corp/widgets`,
because the canonicalizer rewrites `@` to `_`.  Second, the accepted SSH URLs
`git@example.com/x:widgets.git` and `git@example.com:x/widgets.git` name
different hosts (`example.com/x` versus `example.com`), yet both canonicalize
to `example.com/x/widgets`, because a `/` inside the host segment is
indistinguishable from the composed separator. -/
theorem canonicalizer_collision_counterexample :
    (urlPartsOrgAt.host = urlPartsOrgUnder.host ∧
      urlPartsOrgAt.org ≠ urlPartsOrgUnder.org ∧
      extractRepoNameGit (renderUrl urlPartsOrgAt)
        = .ok ("example.com/acme_corp/widgets".data) ∧
      extractRepoNameGit (renderUrl urlPartsOrgUnder)
        = .ok ("example.com/acme_corp/widgets".data)) ∧
    (urlHost sshSlashHostUrlA = some ("example.com/x".data) ∧
      urlHost sshSlashHostUrlB = some ("example.com".data) ∧
      extractRepoNameGit sshSlashHostUrlA = .ok ("example.com/x/widgets".data) ∧
      extractRepoNameGit sshSlashHostUrlB = .ok ("example.com/x/widgets".data)) := by decide

/-- Claim C8 amended: for every two URLs the canonicalizer accepts whose
parsed host segments are free of the separator `/` and of the rewritten
characters `:` and `@`, different hosts yield distinct identifiers, and so do
different organizations of the same host whenever both URLs carry an
organization segment free of `:` and `@`.  Without those restrictions the
`_`-substitution (for `:` and `@`) and a `/` inside an SSH host segment can
conflate distinct hosts or organizations. -/
theorem canonicalizer_distinct_restricted (u1 u2 id1 id2 host1 host2 : List Char)
    (he1 : extractRepoNameGit u1 = .ok id1)
    (he2 : extractRepoNameGit u2 = .ok id2)
    (hh1 : urlHost u1 = some host1) (hh2 : urlHost u2 = some host2)
    (hc1 : sl ∉ host1 ∧ ':' ∉ host1 ∧ '@' ∉ host1)
    (hc2 : sl ∉ host2 ∧ ':' ∉ host2 ∧ '@' ∉ host2)
    (hdiff : host1 ≠ host2 ∨
      (host1 = host2 ∧ ∃ org1 org2,
        urlOrg u1 = some org1 ∧ urlOrg u2 = some org2 ∧
        ':' ∉ org1 ∧ '@' ∉ org1 ∧ ':' ∉ org2 ∧ '@' ∉ org2 ∧ org1 ≠ org2)) :
    id1 ≠ id2 := by
  intro heq
  obtain ⟨h1, t1, hhh1, hid1, hor1⟩ := extract_ok_structure u1 id1 he1
  obtain ⟨h2, t2, hhh2, hid2, hor2⟩ := extract_ok_structure u2 id2 he2
  rw [hhh1] at hh1
  rw [hhh2] at hh2
  obtain rfl : h1 = host1 := Option.some.inj hh1
  obtain rfl : h2 = host2 := Option.some.inj hh2
  rw [replace2_append_sl, replaceChar_no _ _ _ hc1.2.1, replaceChar_no _ _ _ hc1.2.2] at hid1
  rw [replace2_append_sl, replaceChar_no _ _ _ hc2.2.1, replaceChar_no _ _ _ hc2.2.2] at hid2
  rw [hid1, hid2] at heq
  obtain ⟨hhost, htail⟩ := append_sep_inj sl _ _ _ _ hc1.1 hc2.1 heq
  rcases hdiff with hne | ⟨_, org1, org2, ho1, ho2, hco1, hca1, hco2, hca2, hone⟩
  · exact hne hhost
  · rcases hor1 with ⟨o1, r1, ho1x, hsl1, ht1⟩ | hnone1
    · rcases hor2 with ⟨o2, r2, ho2x, hsl2, ht2⟩ | hnone2
      · rw [ho1x] at ho1
        rw [ho2x] at ho2
        obtain rfl : o1 = org1 := Option.some.inj ho1
        obtain rfl : o2 = org2 := Option.some.inj ho2
        rw [ht1, ht2, replace2_append_sl, replace2_append_sl,
          replaceChar_no _ _ _ hco1, replaceChar_no _ _ _ hca1,
          replaceChar_no _ _ _ hco2, replaceChar_no _ _ _ hca2] at htail
        exact hone (append_sep_inj sl _ _ _ _ hsl1 hsl2 htail).1
      · rw [hnone2] at ho2
        exact Option.noConfusion ho2
    · rw [hnone1] at ho1
      exact Option.noConfusion ho1

/-- Witness for the amended C8: the accepted four-segment URLs
`https://example.com/teamA/widgets/v2` and `https://example.com/teamB/widgets/v2`
share the host but name different organizations, so their identifiers differ. -/
theorem canonicalizer_distinct_restricted_witness :
    extractRepoNameGit urlReviewA = .ok ("example.com/teamA/widgets".data) ∧
    extractRepoNameGit urlReviewB = .ok ("example.com/teamB/widgets".data) ∧
    ("example.com/teamA/widgets".data : List Char) ≠ ("example.com/teamB/widgets".data) := by
  refine ⟨by decide, by decide, ?_⟩
  exact canonicalizer_distinct_restricted urlReviewA urlReviewB
    ("example.com/teamA/widgets".data) ("example.com/teamB/widgets".data)
    ("example.com".data) ("example.com".data)
    (by decide) (by decide) (by decide) (by decide) (by decide) (by decide)
    (Or.inr ⟨rfl, "teamA".data, "teamB".data, by decide, by decide, by decide,
      by decide, by decide, by decide, by decide⟩)

/-- Claim C1 is false as stated: a sync attempt that ends in
`LocalChangesSkipped` and one that ends in `UpToDate` hand the caller the
same value `Ok(())`, so the value returned to the caller does not identify
which of the five outcomes occurred. -/
theorem sync_caller_result_collision :
    (syncRepository repoDirtyEx).1 = .localChangesSkipped ∧
    (syncRepository repoCurrentEx).1 = .upToDate ∧
    syncRepositoryResult repoDirtyEx = syncRepositoryResult repoCurrentEx := by decide

/-- Claim C1 amended: every sync attempt terminates in exactly one of the
five outcomes `FastForwarded(n)`, `UpToDate`, `DivergedSkipped`,
`LocalChangesSkipped`, `Error(reason)`, but the value returned to the caller
only identifies whether the outcome was an `Error` (with its reason); the
four non-error outcomes are all reported as plain success. -/
theorem sync_terminal_outcomes (r : RepoModel) :
    ((∃ n, (syncRepository r).1 = .fastForwarded n) ∨ (syncRepository r).1 = .upToDate ∨
      (syncRepository r).1 = .divergedSkipped ∨ (syncRepository r).1 = .localChangesSkipped ∨
      (∃ e, (syncRepository r).1 = .error e)) ∧
    (∀ e, syncRepositoryResult r = .error e ↔ (syncRepository r).1 = .error e) ∧
    (syncRepositoryResult r = .ok () ↔ ∀ e, (syncRepository r).1 ≠ .error e) := by
  refine ⟨?_, ?_, ?_⟩
  · cases h : (syncRepository r).1 with
    | fastForwarded n => exact Or.inl ⟨n, rfl⟩
    | upToDate => exact Or.inr (Or.inl rfl)
    | divergedSkipped => exact Or.inr (Or.inr (Or.inl rfl))
    | localChangesSkipped => exact Or.inr (Or.inr (Or.inr (Or.inl rfl)))
    | error e => exact Or.inr (Or.inr (Or.inr (Or.inr ⟨e, rfl⟩)))
  · intro e
    unfold syncRepositoryResult
    cases h : (syncRepository r).1 <;> simp [h]
  · unfold syncRepositoryResult
    cases h : (syncRepository r).1 <;> simp [h]

/-- Claim C2: for a repository with no uncommitted modification whose branch
is strictly `n` commits behind the fetched remote-tracking tip `t` with zero
commits ahead (all provider calls succeeding), the sync attempt ends in
`FastForwarded(n)`, moves the local branch reference to the remote commit,
and force-updates the working directory to match it. -/
theorem sync_fast_forward_correct (r : RepoModel) (b : List Char) (t n : Nat)
    (hpath : r.pathExists = true) (hopen : r.openOk = true) (horig : r.originOk = true)
    (hfetch : r.fetchOk = true) (hstat : r.statusesOk = true) (hdirty : r.dirty = false)
    (hhead : r.headOk = true) (hbr : r.headShorthand = some b)
    (hrem : r.remoteBranchTip = some t)
    (hpr : r.peelRemoteOk = true) (hpl : r.peelLocalOk = true) (hg : r.graphOk = true)
    (hahead : r.ahead = 0) (hbehind : r.behind = n) (hn : 0 < n)
    (hfind : r.findLocalRefOk = true) (hset : r.setTargetOk = true)
    (hco : r.checkoutOk = true) :
    (syncRepository r).1 = .fastForwarded n ∧
    (syncRepository r).2.branchTip = t ∧
    (syncRepository r).2.workdir = t := by
  obtain ⟨pe, oo, og, fo, rbt, so, d, ho, hs, prr, pll, go, ah, bh, fl, st, co, bt, wd, tr⟩ := r
  dsimp only at hpath hopen horig hfetch hstat hdirty hhead hbr hrem hpr hpl hg hahead hbehind hfind hset hco
  subst hpath hopen horig hfetch hstat hdirty hhead hbr hrem hpr hpl hg hahead hbehind hfind hset hco
  simp [syncRepository, hn]

/-- Witness for C2: a clean repository two commits behind fast-forwards to the
remote tip `5`. -/
theorem sync_fast_forward_correct_witness :
    (syncRepository repoBehindEx).1 = .fastForwarded 2 ∧
    (syncRepository repoBehindEx).2.branchTip = 5 ∧
    (syncRepository repoBehindEx).2.workdir = 5 :=
  sync_fast_forward_correct repoBehindEx ("main".data) 5 2 rfl rfl rfl rfl rfl rfl rfl rfl
    rfl rfl rfl rfl rfl rfl (by decide) rfl rfl rfl

/-- Claim C3: with uncommitted local modifications the sync attempt ends in
`LocalChangesSkipped`, and on a diverged branch (commits both ahead and
behind) it ends in `DivergedSkipped`; in both cases the local branch tip and
the working directory are exactly as before, regardless of remote state. -/
theorem sync_skip_preserves_local_state (r : RepoModel) :
    (r.pathExists = true → r.openOk = true → r.originOk = true → r.fetchOk = true →
      r.statusesOk = true → r.dirty = true →
      (syncRepository r).1 = .localChangesSkipped ∧
      (syncRepository r).2.branchTip = r.branchTip ∧
      (syncRepository r).2.workdir = r.workdir) ∧
    (∀ b t, r.pathExists = true → r.openOk = true → r.originOk = true → r.fetchOk = true →
      r.statusesOk = true → r.dirty = false → r.headOk = true → r.headShorthand = some b →
      r.remoteBranchTip = some t → r.peelRemoteOk = true → r.peelLocalOk = true →
      r.graphOk = true → 0 < r.ahead → 0 < r.behind →
      (syncRepository r).1 = .divergedSkipped ∧
      (syncRepository r).2.branchTip = r.branchTip ∧
      (syncRepository r).2.workdir = r.workdir) := by
  constructor
  · intro hpath hopen horig hfetch hstat hdirty
    obtain ⟨pe, oo, og, fo, rbt, so, d, ho, hs, prr, pll, go, ah, bh, fl, st, co, bt, wd, tr⟩ := r
    dsimp only at hpath hopen horig hfetch hstat hdirty
    subst hpath hopen horig hfetch hstat hdirty
    simp [syncRepository]
  · intro b t hpath hopen horig hfetch hstat hdirty hhead hbr hrem hpr hpl hg hahead hbehind
    obtain ⟨pe, oo, og, fo, rbt, so, d, ho, hs, prr, pll, go, ah, bh, fl, st, co, bt, wd, tr⟩ := r
    dsimp only at hpath hopen horig hfetch hstat hdirty hhead hbr hrem hpr hpl hg hahead hbehind
    subst hpath hopen horig hfetch hstat hdirty hhead hbr hrem hpr hpl hg
    have ha0 : ¬ (ah = 0) := Nat.pos_iff_ne_zero.mp hahead
    simp [syncRepository, ha0, hahead, hbehind]

/-- Witness for C3: the dirty repository is skipped with its state intact, and
the diverged repository is skipped with its branch tip intact. -/
theorem sync_skip_preserves_local_state_witness :
    (syncRepository repoDirtyEx).1 = .localChangesSkipped ∧
    (syncRepository repoDirtyEx).2.workdir = repoDirtyEx.workdir ∧
    (syncRepository repoDivergedEx).1 = .divergedSkipped ∧
    (syncRepository repoDivergedEx).2.branchTip = repoDivergedEx.branchTip := by
  refine ⟨?_, ?_, ?_, ?_⟩
  · exact ((sync_skip_preserves_local_state repoDirtyEx).1 rfl rfl rfl rfl rfl rfl).1
  · exact ((sync_skip_preserves_local_state repoDirtyEx).1 rfl rfl rfl rfl rfl rfl).2.2
  · exact ((sync_skip_preserves_local_state repoDivergedEx).2 ("main".data) 5 rfl rfl rfl rfl
      rfl rfl rfl rfl rfl rfl rfl rfl (by decide) (by decide)).1
  · exact ((sync_skip_preserves_local_state repoDivergedEx).2 ("main".data) 5 rfl rfl rfl rfl
      rfl rfl rfl rfl rfl rfl rfl rfl (by decide) (by decide)).2.1

/-- Claim C6 is false as stated: registering a repository and having its first
sync attempt fail writes the transition `pending → error`, which is not among
the five transitions the claim lists. -/
theorem status_pending_to_error :
    traceTransitions none [RepoOp.register, RepoOp.syncFail]
      = [(Status.pending, Status.error)] ∧
    (Status.pending, Status.error) ∉ specAllowedTransitions := by decide

/-- Claim C6 amended: over any operation sequence, every status transition a
record undergoes is among `pending→synced`, `pending→error`, `synced→synced`,
`synced→error`, `error→synced`, `error→error`; in particular a status is
never set back to `pending` after registration. -/
theorem status_transitions_allowed (ops : List RepoOp) (p : Status × Status)
    (hp : p ∈ traceTransitions none ops) :
    p ∈ amendedAllowedTransitions ∧ p.2 ≠ Status.pending := by
  suffices h : ∀ s0 : Option Status, p ∈ traceTransitions s0 ops →
      p.2 = Status.synced ∨ p.2 = Status.error by
    obtain ⟨a, b⟩ := p
    have h2 := h none hp
    dsimp only at h2
    constructor
    · rcases h2 with rfl | rfl <;> cases a <;> decide
    · rcases h2 with rfl | rfl <;> simp
  clear hp
  induction ops with
  | nil =>
    intro s0 h
    simp [traceTransitions] at h
  | cons op rest ih =>
    intro s0 hmem
    cases s0 with
    | none =>
      cases op with
      | register =>
        simp only [traceTransitions] at hmem
        exact ih _ hmem
      | syncSucceed =>
        simp only [traceTransitions] at hmem
        exact ih _ hmem
      | syncFail =>
        simp only [traceTransitions] at hmem
        exact ih _ hmem
    | some s =>
      cases op with
      | register =>
        simp only [traceTransitions] at hmem
        exact ih _ hmem
      | syncSucceed =>
        simp only [traceTransitions, List.mem_cons] at hmem
        rcases hmem with rfl | hmem
        · exact Or.inl rfl
        · exact ih _ hmem
      | syncFail =>
        simp only [traceTransitions, List.mem_cons] at hmem
        rcases hmem with rfl | hmem
        · exact Or.inr rfl
        · exact ih _ hmem

/-- Witness for the amended C6: the transition written by a successful first
sync after registration is allowed and does not target `pending`. -/
theorem status_transitions_allowed_witness :
    (Status.pending, Status.synced) ∈ amendedAllowedTransitions ∧
    (Status.pending, Status.synced).2 ≠ Status.pending :=
  status_transitions_allowed [RepoOp.register, RepoOp.syncSucceed]
    (Status.pending, Status.synced) (by decide)

/-- Claim C9: when the clone target directory derived from the URL already
exists, `clone_repository` fails with the already-exists error before any
clone is attempted, and the filesystem — in particular the existing directory
and its contents — is left completely unchanged. -/
theorem clone_existing_path_rejected (base : List Char) (fs : FsState) (url : List Char)
    (remote : Nat) (cloneOk : Bool) (name : List Char)
    (hname : extractRepoNameGit url = .ok name)
    (hexists : pathExistsFs fs (base ++ [sl] ++ name) = true) :
    cloneRepository base fs url remote cloneOk
      = (.error ("Repository already exists at ".data ++ (base ++ [sl] ++ name)), fs, false) := by
  unfold cloneRepository
  rw [hname]
  simp at hexists
  simp [hexists]

/-- Witness for C9: cloning `cloneUrlEx` into `fsEx`, where the target already
exists, is rejected and leaves the filesystem untouched. -/
theorem clone_existing_path_rejected_witness :
    cloneRepository baseEx fsEx cloneUrlEx 9 true
      = (.error ("Repository already exists at ".data ++ (baseEx ++ [sl] ++ cloneNameEx)),
          fsEx, false) :=
  clone_existing_path_rejected baseEx fsEx cloneUrlEx 9 true cloneNameEx
    (by decide) (by decide)

theorem updateRepositoryStatus_urls (db : List RepoRecord) (u : List Char) (s : Status) :
    (updateRepositoryStatus db u s).map RepoRecord.url = db.map RepoRecord.url := by
  unfold updateRepositoryStatus
  rw [List.map_map]
  refine List.map_congr_left ?_
  intro r _
  by_cases h : r.url = u <;> simp [h]

theorem updateLastSynced_urls (db : List RepoRecord) (u : List Char) (now : Nat) :
    (updateLastSynced db u now).map RepoRecord.url = db.map RepoRecord.url := by
  unfold updateLastSynced
  rw [List.map_map]
  refine List.map_congr_left ?_
  intro r _
  by_cases h : r.url = u <;> simp [h]

theorem syncStep_urls (f : RepoRecord → Except (List Char) Unit) (now : Nat)
    (acc : List RepoRecord) (repo : RepoRecord) :
    (syncStep f now acc repo).map RepoRecord.url = acc.map RepoRecord.url := by
  unfold syncStep
  cases f repo with
  | error e => exact updateRepositoryStatus_urls acc repo.url .error
  | ok u => rw [updateLastSynced_urls, updateRepositoryStatus_urls]

theorem foldl_syncStep_urls (f : RepoRecord → Except (List Char) Unit) (now : Nat) :
    ∀ (todo acc : List RepoRecord),
      (todo.foldl (syncStep f now) acc).map RepoRecord.url = acc.map RepoRecord.url := by
  intro todo
  induction todo with
  | nil => intro acc; rfl
  | cons t rest ih =>
    intro acc
    rw [List.foldl_cons, ih, syncStep_urls]

theorem mem_updateRepositoryStatus_other (db : List RepoRecord) (u : List Char) (s : Status)
    (x : RepoRecord) (hx : x ∈ db) (hne : x.url ≠ u) : x ∈ updateRepositoryStatus db u s := by
  unfold updateRepositoryStatus
  have h := List.mem_map_of_mem
    (fun r => if r.url = u then { r with status := s } else r) hx
  simpa [hne] using h

theorem mem_updateLastSynced_other (db : List RepoRecord) (u : List Char) (now : Nat)
    (x : RepoRecord) (hx : x ∈ db) (hne : x.url ≠ u) : x ∈ updateLastSynced db u now := by
  unfold updateLastSynced
  have h := List.mem_map_of_mem
    (fun r => if r.url = u then { r with lastSynced := some now } else r) hx
  simpa [hne] using h

theorem syncStep_mem_other (f : RepoRecord → Except (List Char) Unit) (now : Nat)
    (acc : List RepoRecord) (repo x : RepoRecord) (hx : x ∈ acc) (hne : x.url ≠ repo.url) :
    x ∈ syncStep f now acc repo := by
  unfold syncStep
  cases f repo with
  | error e => exact mem_updateRepositoryStatus_other acc repo.url .error x hx hne
  | ok u =>
    exact mem_updateLastSynced_other _ repo.url now x
      (mem_updateRepositoryStatus_other acc repo.url .synced x hx hne) hne

theorem syncStep_mem_self (f : RepoRecord → Except (List Char) Unit) (now : Nat)
    (acc : List RepoRecord) (repo : RepoRecord) (hx : repo ∈ acc) :
    syncRecordOutcome f now repo ∈ syncStep f now acc repo := by
  unfold syncStep syncRecordOutcome
  cases f repo with
  | error e =>
    unfold updateRepositoryStatus
    have h := List.mem_map_of_mem
      (fun r => if r.url = repo.url then { r with status := Status.error } else r) hx
    simpa using h
  | ok u =>
    unfold updateLastSynced updateRepositoryStatus
    have h := List.mem_map_of_mem
      (fun r => if r.url = repo.url then { r with status := Status.synced } else r) hx
    have h2 := List.mem_map_of_mem
      (fun r => if r.url = repo.url then { r with lastSynced := some now } else r) h
    simpa using h2

theorem foldl_syncStep_keeps (f : RepoRecord → Except (List Char) Unit) (now : Nat) :
    ∀ (todo acc : List RepoRecord) (x : RepoRecord),
      x ∈ acc → (∀ q ∈ todo, q.url ≠ x.url) → x ∈ todo.foldl (syncStep f now) acc := by
  intro todo
  induction todo with
  | nil =>
    intro acc x hx _
    exact hx
  | cons t rest ih =>
    intro acc x hx hq
    rw [List.foldl_cons]
    refine ih _ x ?_ ?_
    · exact syncStep_mem_other f now acc t x hx
        (fun he => hq t (List.mem_cons_self t rest) he.symm)
    · intro q hqr
      exact hq q (List.mem_cons_of_mem _ hqr)

theorem foldl_syncStep_spec (f : RepoRecord → Except (List Char) Unit) (now : Nat) :
    ∀ (todo acc : List RepoRecord), (todo.map RepoRecord.url).Nodup →
      (∀ r ∈ todo, r ∈ acc) →
      ∀ r ∈ todo, syncRecordOutcome f now r ∈ todo.foldl (syncStep f now) acc := by
  intro todo
  induction todo with
  | nil =>
    intro acc _ _ r hr
    exact absurd hr (List.not_mem_nil r)
  | cons t rest ih =>
    intro acc hnodup hsub r hr
    rw [List.map_cons, List.nodup_cons] at hnodup
    rw [List.foldl_cons]
    rcases List.mem_cons.mp hr with rfl | hr'
    · refine foldl_syncStep_keeps f now rest _ _ ?_ ?_
      · exact syncStep_mem_self f now acc r (hsub r (List.mem_cons_self r rest))
      · intro q hq he
        have hout : (syncRecordOutcome f now r).url = r.url := by
          unfold syncRecordOutcome
          cases f r <;> rfl
        apply hnodup.1
        rw [hout] at he
        rw [← he]
        exact List.mem_map_of_mem RepoRecord.url hq
    · refine ih (syncStep f now acc t) hnodup.2 ?_ r hr'
      intro q hq
      refine syncStep_mem_other f now acc t q (hsub q (List.mem_cons_of_mem _ hq)) ?_
      intro he
      apply hnodup.1
      rw [← he]
      exact List.mem_map_of_mem RepoRecord.url hq

/-- Claim C7: the sweep visits every record of the registry read at its start;
a record whose sync succeeds ends up with `status = synced` and `last_synced`
refreshed to the sweep time, a record whose sync fails ends up with
`status = error` and its `last_synced` untouched, and one record's failure
changes nothing about how the other records are processed — the sweep also
never drops or adds a record. -/
theorem sync_all_processes_every_record (f : RepoRecord → Except (List Char) Unit)
    (now : Nat) (db : List RepoRecord) (hnodup : (db.map RepoRecord.url).Nodup) :
    (syncAllRepositories f now db).map RepoRecord.url = db.map RepoRecord.url ∧
    ∀ r ∈ db, syncRecordOutcome f now r ∈ syncAllRepositories f now db := by
  constructor
  · exact foldl_syncStep_urls f now db db
  · exact foldl_syncStep_spec f now db db hnodup (fun r hr => hr)

/-- Witness for C7: in a three-record sweep where the middle record's sync
fails, the middle record is marked `error` while the first record is marked
`synced` with `last_synced` refreshed. -/
theorem sync_all_processes_every_record_witness :
    (⟨"https://example.com/acme/beta".data, Status.error, none⟩ : RepoRecord)
        ∈ syncAllRepositories syncFnEx 7 dbEx ∧
    (⟨"https://example.com/acme/alpha".data, Status.synced, some 7⟩ : RepoRecord)
        ∈ syncAllRepositories syncFnEx 7 dbEx := by
  have h := sync_all_processes_every_record syncFnEx 7 dbEx (by decide)
  constructor
  · exact h.2 ⟨"https://example.com/acme/beta".data, Status.pending, none⟩ (by decide)
  · exact h.2 ⟨"https://example.com/acme/alpha".data, Status.pending, none⟩ (by decide)
